import Mathlib

/-!
Verification of the code-execution engine of `run-typescript-skills-mcp`
(`src/tools/run-skill-code-impl.ts`) against its natural-language
specification.

The embedding works on `List Char` (a JS string is modelled as its list of
UTF-16-ish code points).  The pieces of the engine that are repository code
(the import/body splitter, the `~/` alias expander, the harness template, the
sentinel decoder, the try/finally control flow, the `Bun.spawn` configuration)
are translated directly from the source.  The host built-ins the engine leans
on (`JSON.stringify` / `JSON.parse`, the runtime behaviour of the synthesized
harness) are modelled explicitly: JSON values are a mutual inductive with
integer numbers, stringification escapes the characters `JSON.stringify`
escapes, and the parser is a fuel-indexed recursive-descent decoder for the
whitespace-free texts the harness actually produces.
-/

/-! ## The JSON data model (modelling the host's structured-data encoding)

`Json` mirrors the values `JSON.stringify` can encode: null, booleans,
numbers (restricted to integers; float formatting is out of scope), strings,
arrays and objects.  The lists inside arrays and objects are explicit mutual
inductives so that every function below is structurally recursive and
kernel-reducible. -/

mutual

inductive Json where
  | null : Json
  | bool : Bool → Json
  | num : Int → Json
  | str : List Char → Json
  | arr : JsonList → Json
  | obj : JsonMembers → Json

inductive JsonList where
  | nil : JsonList
  | cons : Json → JsonList → JsonList

inductive JsonMembers where
  | nil : JsonMembers
  | cons : List Char → Json → JsonMembers → JsonMembers

end

/-! Fuel measure used both by the recursive-descent parser and as the
induction measure for mutual statements about `Json`. -/

mutual

def jfuel : Json → Nat
  | .null => 1
  | .bool _ => 1
  | .num _ => 1
  | .str _ => 1
  | .arr .nil => 1
  | .arr (.cons x xs) => 1 + jfuelE (.cons x xs)
  | .obj .nil => 1
  | .obj (.cons k v ms) => 1 + jfuelM (.cons k v ms)
termination_by structural v => v

def jfuelE : JsonList → Nat
  | .nil => 0
  | .cons x xs => 1 + jfuel x + jfuelE xs
termination_by structural v => v

def jfuelM : JsonMembers → Nat
  | .nil => 0
  | .cons _ v ms => 1 + jfuel v + jfuelM ms
termination_by structural v => v

end

/-! ## Decimal digits (model of JS number-to-string for integer values) -/

def natDigitsAux : Nat → Nat → List Char
  | 0, _ => []
  | fuel + 1, n =>
    if n < 10 then [Nat.digitChar n]
    else natDigitsAux fuel (n / 10) ++ [Nat.digitChar (n % 10)]

def natDigits (n : Nat) : List Char := natDigitsAux (n + 1) n

/-- Decimal text of an integer, as JS prints integer-valued numbers. -/
def intRepr (i : Int) : List Char :=
  if i < 0 then '-' :: natDigits i.natAbs else natDigits i.toNat

def digitsToNat (ds : List Char) : Nat :=
  ds.foldl (fun a c => a * 10 + (c.toNat - 48)) 0

/-! ## Hex digits for the `\uXXXX` string escapes -/

def hexDigitChar (n : Nat) : Char :=
  if n < 10 then Char.ofNat (48 + n) else Char.ofNat (87 + n)

def hexVal (c : Char) : Option Nat :=
  if 48 ≤ c.toNat ∧ c.toNat ≤ 57 then some (c.toNat - 48)
  else if 97 ≤ c.toNat ∧ c.toNat ≤ 102 then some (c.toNat - 87)
  else if 65 ≤ c.toNat ∧ c.toNat ≤ 70 then some (c.toNat - 55)
  else none

def hexVal4 (a b c d : Char) : Option Nat :=
  match hexVal a, hexVal b, hexVal c, hexVal d with
  | some x, some y, some z, some w => some (4096 * x + 256 * y + 16 * z + w)
  | _, _, _, _ => none

/-! ## String escaping, as `JSON.stringify` performs it -/

/-- Escape one character of a JSON string the way `JSON.stringify` does:
quote and backslash get a backslash, the five named control escapes are used
where they exist, any other control character becomes `\u00XX`. -/
def escChar (c : Char) : List Char :=
  if c = '\x22' then ['\\', '\x22']
  else if c = '\\' then ['\\', '\\']
  else if c = '\x08' then ['\\', 'b']
  else if c = '\x09' then ['\\', 't']
  else if c = '\x0a' then ['\\', 'n']
  else if c = '\x0c' then ['\\', 'f']
  else if c = '\x0d' then ['\\', 'r']
  else if c.toNat < 32 then
    ['\\', 'u', '0', '0', hexDigitChar (c.toNat / 16), hexDigitChar (c.toNat % 16)]
  else [c]

def escList : List Char → List Char
  | [] => []
  | c :: s => escChar c ++ escList s

/-! ## `JSON.stringify` (model, for the integer-numbered fragment) -/

mutual

def strV : Json → List Char
  | .null => ['n', 'u', 'l', 'l']
  | .bool b => if b then ['t', 'r', 'u', 'e'] else ['f', 'a', 'l', 's', 'e']
  | .num i => intRepr i
  | .str s => '\x22' :: (escList s ++ ['\x22'])
  | .arr .nil => ['[', ']']
  | .arr (.cons x xs) => '[' :: (strV x ++ strElemsTail xs ++ [']'])
  | .obj .nil => ['\x7b', '\x7d']
  | .obj (.cons k v ms) =>
    '\x7b' :: ('\x22' :: (escList k ++ '\x22' :: ':' :: strV v) ++ strMembersTail ms ++ ['\x7d'])
termination_by structural v => v

def strElemsTail : JsonList → List Char
  | .nil => []
  | .cons x xs => ',' :: (strV x ++ strElemsTail xs)
termination_by structural v => v

def strMembersTail : JsonMembers → List Char
  | .nil => []
  | .cons k v ms => ',' :: ('\x22' :: (escList k ++ '\x22' :: ':' :: strV v) ++ strMembersTail ms)
termination_by structural v => v

end

/-- The serialized text of one object member, `"key":value`. -/
def strMember (k : List Char) (v : Json) : List Char :=
  '\x22' :: (escList k ++ '\x22' :: ':' :: strV v)

/-! ## `JSON.parse` (model): fuel-indexed recursive descent

The harness only ever feeds the decoder texts produced by `JSON.stringify`
(which emit no insignificant whitespace), so the model parses JSON texts
without skipping whitespace.  The fuel only bounds nesting/iteration; the
top-level entry point supplies more than enough. -/

def unescSimple (e : Char) : Option Char :=
  if e = '\x22' then some '\x22'
  else if e = '\\' then some '\\'
  else if e = '/' then some '/'
  else if e = 'b' then some '\x08'
  else if e = 'f' then some '\x0c'
  else if e = 'n' then some '\x0a'
  else if e = 'r' then some '\x0d'
  else if e = 't' then some '\x09'
  else none

def parseStrBody : List Char → Option (List Char × List Char)
  | [] => none
  | c :: rest =>
    if c = '\x22' then some ([], rest)
    else if c = '\\' then
      match rest with
      | [] => none
      | e :: rest2 =>
        if e = 'u' then
          match rest2 with
          | h1 :: h2 :: h3 :: h4 :: rest3 =>
            match hexVal4 h1 h2 h3 h4 with
            | some n =>
              match parseStrBody rest3 with
              | some (s, r) => some (Char.ofNat n :: s, r)
              | none => none
            | none => none
          | _ => none
        else
          match unescSimple e with
          | some c2 =>
            match parseStrBody rest2 with
            | some (s, r) => some (c2 :: s, r)
            | none => none
          | none => none
    else if c.toNat < 32 then none
    else
      match parseStrBody rest with
      | some (s, r) => some (c :: s, r)
      | none => none

def expect (pat s : List Char) : Option (List Char) :=
  if pat.isPrefixOf s then some (s.drop pat.length) else none

def parsePosNum (s : List Char) : Option (Nat × List Char) :=
  let ds := s.takeWhile (fun c => c.isDigit)
  if ds = [] then none else some (digitsToNat ds, s.dropWhile (fun c => c.isDigit))

mutual

def parseVal : Nat → List Char → Option (Json × List Char)
  | 0, _ => none
  | _ + 1, [] => none
  | fuel + 1, c :: rest =>
    if c = 'n' then (expect ['u', 'l', 'l'] rest).map (fun r => (.null, r))
    else if c = 't' then (expect ['r', 'u', 'e'] rest).map (fun r => (.bool true, r))
    else if c = 'f' then (expect ['a', 'l', 's', 'e'] rest).map (fun r => (.bool false, r))
    else if c = '\x22' then (parseStrBody rest).map (fun p => (.str p.1, p.2))
    else if c = '[' then
      if rest.take 1 = [']'] then some (.arr .nil, rest.drop 1)
      else
        (parseElems fuel rest).bind (fun p =>
          if p.2.take 1 = [']'] then some (.arr p.1, p.2.drop 1) else none)
    else if c = '\x7b' then
      if rest.take 1 = ['\x7d'] then some (.obj .nil, rest.drop 1)
      else
        (parseMembers fuel rest).bind (fun p =>
          if p.2.take 1 = ['\x7d'] then some (.obj p.1, p.2.drop 1) else none)
    else if c = '-' then (parsePosNum rest).map (fun p => (.num (-(p.1 : Int)), p.2))
    else if c.isDigit then (parsePosNum (c :: rest)).map (fun p => (.num (p.1 : Int), p.2))
    else none
termination_by structural fuel _ => fuel

def parseElems : Nat → List Char → Option (JsonList × List Char)
  | 0, _ => none
  | fuel + 1, input =>
    (parseVal fuel input).bind (fun p =>
      if p.2.take 1 = [','] then
        (parseElems fuel (p.2.drop 1)).map (fun q => (.cons p.1 q.1, q.2))
      else some (.cons p.1 .nil, p.2))
termination_by structural fuel _ => fuel

def parseMembers : Nat → List Char → Option (JsonMembers × List Char)
  | 0, _ => none
  | fuel + 1, input =>
    if input.take 1 = ['\x22'] then
      (parseStrBody (input.drop 1)).bind (fun pk =>
        if pk.2.take 1 = [':'] then
          (parseVal fuel (pk.2.drop 1)).bind (fun pv =>
            if pv.2.take 1 = [','] then
              (parseMembers fuel (pv.2.drop 1)).map (fun q => (.cons pk.1 pv.1 q.1, q.2))
            else some (.cons pk.1 pv.1 .nil, pv.2))
        else none)
    else none
termination_by structural fuel _ => fuel

end

/-- `JSON.parse` wrapped in the decoder's `try`: `none` models both a parse
error and the `undefined` produced by the `catch` arm. -/
def jsonParse (s : List Char) : Option Json :=
  match parseVal (s.length + 1) s with
  | some (v, []) => some v
  | _ => none

/-! ## Substring search (model of JS `String.prototype.indexOf`) -/

/-- Index of the first occurrence of `pat` in `hay`; `none` plays the role of
JS's `-1`. -/
def firstIdx : List Char → List Char → Option Nat
  | [], pat => if pat.isPrefixOf ([] : List Char) then some 0 else none
  | c :: t, pat =>
    if pat.isPrefixOf (c :: t) then some 0 else (firstIdx t pat).map (· + 1)

/-- JS `indexOf` with a single-character search string. -/
def charIdx (s : List Char) (c : Char) : Option Nat := firstIdx s [c]

def containsSub (s pat : List Char) : Bool := (firstIdx s pat).isSome

/-! ## The sentinel protocol and the result decoder
(`run-skill-code-impl.ts`, lines 73-91) -/

/-- The fixed sentinel token `__RETURN_VALUE__:`. -/
def returnMarker : List Char := "__RETURN_VALUE__:".data

/-- The decoder: locate the first sentinel occurrence, take the text from
just after the token up to the next line break (or end of text) as the
payload, `JSON.parse` it under a `catch` that yields `undefined`, and excise
the token plus payload line from the echoed stdout.  Translated clause by
clause from the source. -/
def decodeStdout (stdout : List Char) : Option Json × List Char :=
  match firstIdx stdout returnMarker with
  | none => (none, stdout)
  | some returnIndex =>
    let returnLine := stdout.drop (returnIndex + returnMarker.length)
    match charIdx returnLine '\n' with
    | none => (jsonParse returnLine, stdout.take returnIndex)
    | some returnEnd =>
      (jsonParse (returnLine.take returnEnd),
       stdout.take returnIndex ++ returnLine.drop (returnEnd + 1))

/-! ## Source splitter and alias expander
(`run-skill-code-impl.ts`, lines 23-36) -/

/-- JS `String.prototype.split('\n')`. -/
def splitNl : List Char → List (List Char)
  | [] => [[]]
  | c :: rest =>
    if c = '\n' then [] :: splitNl rest
    else
      match splitNl rest with
      | [] => [[c]]
      | l :: ls => (c :: l) :: ls

/-- The character class of the regex escape `\s` (ECMAScript WhiteSpace and
LineTerminator code points). -/
def isWsJS (c : Char) : Bool :=
  c ∈ ([' ', '\t', '\n', '\r', '\x0b', '\x0c', '\u00A0', '\u1680', '\u2000',
        '\u2001', '\u2002', '\u2003', '\u2004', '\u2005', '\u2006', '\u2007',
        '\u2008', '\u2009', '\u200A', '\u2028', '\u2029', '\u202F', '\u205F',
        '\u3000', '\uFEFF'] : List Char)

/-- The test `/^\s*import\s+/.test(line)`: leading whitespace, the literal
word `import`, then at least one whitespace character. -/
def isImportLine (line : List Char) : Bool :=
  match line.dropWhile isWsJS with
  | 'i' :: 'm' :: 'p' :: 'o' :: 'r' :: 't' :: c :: _ => isWsJS c
  | _ => false

/-- The alias expansion `line.replace(/['"]~\//g, quote + homeDir + "/")`
where the replacement's quote is hard-coded to a single quote in the source:
every (left-to-right, non-overlapping) occurrence of a quote character
followed by `~/` is replaced by `'` ++ home ++ `/`, and replacement text is
not rescanned. -/
def expandLine (home : List Char) : List Char → List Char
  | [] => []
  | q :: rest =>
    if (q = '\x27' ∨ q = '\x22') ∧ rest.take 2 = ['~', '/'] then
      '\x27' :: (home ++ '/' :: expandLine home (rest.drop 2))
    else q :: expandLine home rest
termination_by s => s.length
decreasing_by
  all_goals simp
  omega

structure ParsedSource where
  imports : List (List Char)
  codeLines : List (List Char)

/-- The splitter loop: each line goes to `imports` (alias-expanded) when
the test for an import line matches, otherwise to `codeLines`, in order. -/
def splitLoop (home : List Char) : List (List Char) → ParsedSource
  | [] => ⟨[], []⟩
  | line :: rest =>
    let r := splitLoop home rest
    if isImportLine line then ⟨expandLine home line :: r.imports, r.codeLines⟩
    else ⟨r.imports, line :: r.codeLines⟩

def splitSource (home code : List Char) : ParsedSource :=
  splitLoop home (splitNl code)

/-! ## The harness synthesizer (`run-skill-code-impl.ts`, lines 38-49)

The `wrappedCode` template literal, cut at the sentinel-emitting statement so
that the statement is its own constant. -/

/-- JS `Array.prototype.join('\n')`. -/
def joinNl : List (List Char) → List Char
  | [] => []
  | [l] => l
  | l :: ls => l ++ '\n' :: joinNl ls

def harnessHead : String := "\n"

def harnessMid1 : String :=
  "\n\n(async () => \x7b\n  const __result = await (async () => \x7b\n    "

def harnessMid2 : String := "\n  \x7d)();\n\n  "

/-- The statement that emits the sentinel line: the token and the encoded
payload are concatenated directly, with no whitespace in between. -/
def sentinelStmt : String :=
  "console.log(\x27__RETURN_VALUE__:\x27 + JSON.stringify(__result));"

def harnessTail : String := "\n\x7d)();\n"

/-- The synthesized harness text (the `wrappedCode` template literal). -/
def wrappedCode (imports codeLines : List (List Char)) : List Char :=
  harnessHead.data ++ joinNl imports ++ harnessMid1.data ++ joinNl codeLines
    ++ harnessMid2.data ++ sentinelStmt.data ++ harnessTail.data

/-! ## Observable behaviour of the executed harness

Modelled from the spec (sections 4.2, 4.4 and 6): when the wrapped body block
resolves, the harness appends one `console.log` line consisting of the
sentinel token directly followed by `JSON.stringify(__result)`; when the body
throws, the rejection propagates and the sentinel statement never runs.  A
resolved value is either JSON-serializable or one that `JSON.stringify` maps
to the JS value `undefined` (no explicit `return`, functions), which string
concatenation then renders as the literal text `undefined`. -/

inductive JsValue where
  | json : Json → JsValue
  | undef : JsValue

/-- The payload text placed after the token by
`'__RETURN_VALUE__:' + JSON.stringify(__result)`. -/
def sentinelPayload : JsValue → List Char
  | .json v => strV v
  | .undef => ['u', 'n', 'd', 'e', 'f', 'i', 'n', 'e', 'd']

/-- Concatenated stdout of the body's own `console.log` calls (each call
appends one line break). -/
def logsOut : List (List Char) → List Char
  | [] => []
  | l :: ls => l ++ '\n' :: logsOut ls

/-- Captured stdout of one harness run: the body's logs, then — only if the
body resolved — the sentinel line. -/
def harnessStdout (bodyLogs : List (List Char)) (outcome : Option JsValue) : List Char :=
  logsOut bodyLogs ++
    (match outcome with
     | some v => returnMarker ++ sentinelPayload v ++ ['\n']
     | none => [])

/-! ## Control-flow model of `execute` (lines 16-105)

The fallible host operations are oracles supplied as `Except` outcomes; the
function threads them exactly as the source's `try`/`finally` with the inner
`try { await fs.rm } catch {}` does, and records which filesystem actions
ran.  The exit code of the child is an explicit input that the result
construction never consults (`await proc.exited` discards its value). -/

structure ExecResult where
  returnValue : Option Json
  stdout : List Char
  stderr : List Char

inductive FsEvent where
  | mkdtempDir : FsEvent
  | writeFile : FsEvent
  | spawn : FsEvent
  | readStreams : FsEvent
  | awaitExit : FsEvent
  | rmDir : FsEvent

structure ExecEnv where
  writeFileOutcome : Except (List Char) Unit
  spawnOutcome : Except (List Char) Unit
  stdoutRead : Except (List Char) (List Char)
  stderrRead : Except (List Char) (List Char)

/-- The body of the `try` block: write the harness file, spawn the child,
drain both streams, await exit (value discarded), decode. -/
def executeBody (env : ExecEnv) (_exitCode : Int) : Except (List Char) ExecResult × List FsEvent :=
  match env.writeFileOutcome with
  | .error e => (.error e, [.writeFile])
  | .ok _ =>
    match env.spawnOutcome with
    | .error e => (.error e, [.writeFile, .spawn])
    | .ok _ =>
      match env.stdoutRead, env.stderrRead with
      | .ok out, .ok err =>
        let d := decodeStdout out
        (.ok ⟨d.1, d.2, err⟩, [.writeFile, .spawn, .readStreams, .awaitExit])
      | .error e, _ => (.error e, [.writeFile, .spawn, .readStreams])
      | .ok _, .error e => (.error e, [.writeFile, .spawn, .readStreams])

/-- The `finally` clause's inner `try { await fs.rm(...) } catch {}`: any
removal error is swallowed. -/
def cleanupStep (rmOutcome : Except (List Char) Unit) : Except (List Char) Unit :=
  match rmOutcome with
  | .ok _ => .ok ()
  | .error _ => .ok ()

/-- JS `try`/`finally`: the finalizer runs after the body on success and
failure alike, and a finalizer that threw would replace the outcome. -/
def tryFinallyExec (primary : Except (List Char) ExecResult)
    (fin : Except (List Char) Unit) : Except (List Char) ExecResult :=
  match fin with
  | .ok _ => primary
  | .error e => .error e

/-- `execute` after the workspace was created: `try` body, then the guarded
cleanup in `finally`. -/
def executeModel (env : ExecEnv) (exitCode : Int) (rmOutcome : Except (List Char) Unit) :
    Except (List Char) ExecResult × List FsEvent :=
  let r := executeBody env exitCode
  (tryFinallyExec r.1 (cleanupStep rmOutcome), r.2 ++ [.rmDir])

/-- All of `execute`: `fs.mkdtemp` runs before the `try`, so its failure
propagates with no cleanup to run. -/
def executeTop (mkdtempOutcome : Except (List Char) Unit) (env : ExecEnv)
    (exitCode : Int) (rmOutcome : Except (List Char) Unit) :
    Except (List Char) ExecResult × List FsEvent :=
  match mkdtempOutcome with
  | .error e => (.error e, [])
  | .ok _ =>
    let r := executeModel env exitCode rmOutcome
    (r.1, .mkdtempDir :: r.2)

/-! ## The `Bun.spawn` configuration (lines 54-63)

`runSkillCode` passes `process.cwd()` — the caller's working directory — as
`workingDir`, and the child environment is the host environment spread with
`HOME: process.env.HOME || os.homedir()` (JS `||`, so an unset or empty
`HOME` falls back to the platform home directory). -/

/-- JS `a || b` on an optional environment string: `undefined` and the empty
string are falsy. -/
def jsOrS (v : Option String) (d : String) : String :=
  match v with
  | some s => if s = "" then d else s
  | none => d

def childEnv (hostEnv : String → Option String) (osHomedir : String) :
    String → Option String :=
  fun k => if k = "HOME" then some (jsOrS (hostEnv "HOME") osHomedir) else hostEnv k

structure SpawnConfig where
  cmd : List String
  cwd : String
  env : String → Option String

def spawnConfig (tmpFile callerWorkingDir : String)
    (hostEnv : String → Option String) (osHomedir : String) : SpawnConfig :=
  ⟨["bun", "run", tmpFile], callerWorkingDir, childEnv hostEnv osHomedir⟩

/-! ## Lemmas: decimal digits -/

theorem natDigitsAux_irrel (f1 f2 n : Nat) (h1 : n < f1) (h2 : n < f2) :
    natDigitsAux f1 n = natDigitsAux f2 n := by
  induction n using Nat.strong_induction_on generalizing f1 f2 with
  | _ n ih =>
    match f1, f2 with
    | fa + 1, fb + 1 =>
      simp only [natDigitsAux]
      split
      · rfl
      · rw [ih (n / 10) (by omega) fa fb (by omega) (by omega)]

theorem natDigits_step (n : Nat) :
    natDigits n =
      if n < 10 then [Nat.digitChar n]
      else natDigits (n / 10) ++ [Nat.digitChar (n % 10)] := by
  show natDigitsAux (n + 1) n = _
  simp only [natDigitsAux]
  split
  · rfl
  · rw [natDigitsAux_irrel n (n / 10 + 1) (n / 10) (by omega) (by omega)]
    rfl

theorem digitChar_isDigit {n : Nat} (h : n < 10) : (Nat.digitChar n).isDigit = true := by
  interval_cases n <;> decide

theorem digitChar_val {n : Nat} (h : n < 10) : (Nat.digitChar n).toNat - 48 = n := by
  interval_cases n <;> decide

theorem natDigits_all_digit (n : Nat) : ∀ c ∈ natDigits n, c.isDigit = true := by
  induction n using Nat.strong_induction_on with
  | _ n ih =>
    rw [natDigits_step]
    split
    · next h =>
      intro c hc
      simp only [List.mem_singleton] at hc
      exact hc ▸ digitChar_isDigit h
    · next h =>
      intro c hc
      rcases List.mem_append.mp hc with hc | hc
      · exact ih (n / 10) (by omega) c hc
      · simp only [List.mem_singleton] at hc
        exact hc ▸ digitChar_isDigit (Nat.mod_lt _ (by omega))

theorem natDigits_ne_nil (n : Nat) : natDigits n ≠ [] := by
  rw [natDigits_step]
  split
  · simp
  · simp

theorem digitsToNat_foldl (n : Nat) : ∀ acc : Nat,
    List.foldl (fun a c => a * 10 + (c.toNat - 48)) acc (natDigits n) =
      acc * 10 ^ (natDigits n).length + n := by
  induction n using Nat.strong_induction_on with
  | _ n ih =>
    intro acc
    rw [natDigits_step]
    split
    · next h =>
      simp [List.foldl, pow_one, digitChar_val h]
    · next h =>
      rw [List.foldl_append, ih (n / 10) (by omega) acc]
      simp only [List.foldl, List.length_append, List.length_singleton,
        digitChar_val (Nat.mod_lt n (by omega))]
      rw [pow_succ, Nat.add_mul, Nat.add_assoc]
      have hmod := Nat.div_add_mod n 10
      have : acc * 10 ^ (natDigits (n / 10)).length * 10 =
          acc * ((10 : Nat) ^ (natDigits (n / 10)).length * 10) := by ring
      omega

theorem digitsToNat_natDigits (n : Nat) : digitsToNat (natDigits n) = n := by
  unfold digitsToNat
  rw [digitsToNat_foldl n 0]
  simp

/-! ## Lemmas: takeWhile / dropWhile over digit runs -/

theorem takeWhile_append_all {p : Char → Bool} (a b : List Char)
    (h : ∀ c ∈ a, p c = true) : (a ++ b).takeWhile p = a ++ b.takeWhile p := by
  induction a with
  | nil => simp
  | cons c t ih =>
    simp only [List.cons_append, List.takeWhile_cons, h c (by simp), if_true]
    rw [ih (fun x hx => h x (by simp [hx]))]

theorem dropWhile_append_all {p : Char → Bool} (a b : List Char)
    (h : ∀ c ∈ a, p c = true) : (a ++ b).dropWhile p = b.dropWhile p := by
  induction a with
  | nil => simp
  | cons c t ih =>
    simp only [List.cons_append, List.dropWhile_cons, h c (by simp)]
    exact ih (fun x hx => h x (by simp [hx]))

/-- First character (if any) is not a decimal digit. -/
def notDigitStart : List Char → Bool
  | [] => true
  | c :: _ => !c.isDigit

theorem takeWhile_digit_nil {rest : List Char} (h : notDigitStart rest = true) :
    rest.takeWhile (fun c => c.isDigit) = [] := by
  cases rest with
  | nil => rfl
  | cons c t =>
    simp only [notDigitStart, Bool.not_eq_true'] at h
    simp [List.takeWhile_cons, h]

theorem dropWhile_digit_id {rest : List Char} (h : notDigitStart rest = true) :
    rest.dropWhile (fun c => c.isDigit) = rest := by
  cases rest with
  | nil => rfl
  | cons c t =>
    simp only [notDigitStart, Bool.not_eq_true'] at h
    simp [List.dropWhile_cons, h]

theorem parsePosNum_natDigits (n : Nat) (rest : List Char)
    (h : notDigitStart rest = true) :
    parsePosNum (natDigits n ++ rest) = some (n, rest) := by
  unfold parsePosNum
  rw [takeWhile_append_all _ _ (natDigits_all_digit n),
      dropWhile_append_all _ _ (natDigits_all_digit n),
      takeWhile_digit_nil h, dropWhile_digit_id h]
  simp [natDigits_ne_nil n, digitsToNat_natDigits]

/-! ## Lemmas: hex digits and string escapes -/

theorem hexVal_hexDigitChar {n : Nat} (h : n < 16) : hexVal (hexDigitChar n) = some n := by
  interval_cases n <;> decide

theorem hexVal4_control {m : Nat} (h : m < 32) :
    hexVal4 '0' '0' (hexDigitChar (m / 16)) (hexDigitChar (m % 16)) = some m := by
  have h1 : m / 16 < 16 := by omega
  have h2 : m % 16 < 16 := Nat.mod_lt _ (by omega)
  unfold hexVal4
  rw [hexVal_hexDigitChar h1, hexVal_hexDigitChar h2]
  have h0 : hexVal '0' = some 0 := by decide
  rw [h0]
  simp
  omega

theorem hexDigitChar_ne_newline {n : Nat} (h : n < 16) : hexDigitChar n ≠ '\n' := by
  interval_cases n <;> decide

theorem escChar_not_newline (c : Char) : '\n' ∉ escChar c := by
  by_cases h1 : c = '\x22'
  · subst h1; decide
  by_cases h2 : c = '\\'
  · subst h2; decide
  by_cases h3 : c = '\x08'
  · subst h3; decide
  by_cases h4 : c = '\x09'
  · subst h4; decide
  by_cases h5 : c = '\x0a'
  · subst h5; decide
  by_cases h6 : c = '\x0c'
  · subst h6; decide
  by_cases h7 : c = '\x0d'
  · subst h7; decide
  by_cases h8 : c.toNat < 32
  · simp only [escChar, if_neg h1, if_neg h2, if_neg h3, if_neg h4, if_neg h5,
      if_neg h6, if_neg h7, if_pos h8]
    intro hmem
    simp only [List.mem_cons, List.not_mem_nil, or_false] at hmem
    rcases hmem with h | h | h | h | h | h
    · exact absurd h (by decide)
    · exact absurd h (by decide)
    · exact absurd h (by decide)
    · exact absurd h (by decide)
    · exact hexDigitChar_ne_newline (show c.toNat / 16 < 16 by omega) h.symm
    · exact hexDigitChar_ne_newline (show c.toNat % 16 < 16 from Nat.mod_lt _ (by omega)) h.symm
  · simp only [escChar, if_neg h1, if_neg h2, if_neg h3, if_neg h4, if_neg h5,
      if_neg h6, if_neg h7, if_neg h8, List.mem_cons, List.not_mem_nil, or_false]
    intro hmem
    exact h5 hmem.symm

theorem escList_not_newline (s : List Char) : '\n' ∉ escList s := by
  induction s with
  | nil => simp [escList]
  | cons c t ih =>
    simp only [escList, List.mem_append]
    rintro (h | h)
    · exact escChar_not_newline c h
    · exact ih h

theorem parseStrBody_escList (s : List Char) : ∀ rest : List Char,
    parseStrBody (escList s ++ '\x22' :: rest) = some (s, rest) := by
  induction s with
  | nil =>
    intro rest
    rw [parseStrBody.eq_def]
    simp [escList]
  | cons c t ih =>
    intro rest
    have hshape : escList (c :: t) ++ '\x22' :: rest =
        escChar c ++ (escList t ++ '\x22' :: rest) := by
      simp [escList, List.append_assoc]
    rw [hshape]
    by_cases h1 : c = '\x22'
    · subst h1
      have : escChar '\x22' = ['\\', '\x22'] := by decide
      rw [this, parseStrBody.eq_def]
      simp [unescSimple, ih]
    by_cases h2 : c = '\\'
    · subst h2
      have : escChar '\\' = ['\\', '\\'] := by decide
      rw [this, parseStrBody.eq_def]
      simp [unescSimple, ih]
    by_cases h3 : c = '\x08'
    · subst h3
      have : escChar '\x08' = ['\\', 'b'] := by decide
      rw [this, parseStrBody.eq_def]
      simp [unescSimple, ih]
    by_cases h4 : c = '\x09'
    · subst h4
      have : escChar '\x09' = ['\\', 't'] := by decide
      rw [this, parseStrBody.eq_def]
      simp [unescSimple, ih]
    by_cases h5 : c = '\x0a'
    · subst h5
      have : escChar '\x0a' = ['\\', 'n'] := by decide
      rw [this, parseStrBody.eq_def]
      simp [unescSimple, ih]
    by_cases h6 : c = '\x0c'
    · subst h6
      have : escChar '\x0c' = ['\\', 'f'] := by decide
      rw [this, parseStrBody.eq_def]
      simp [unescSimple, ih]
    by_cases h7 : c = '\x0d'
    · subst h7
      have : escChar '\x0d' = ['\\', 'r'] := by decide
      rw [this, parseStrBody.eq_def]
      simp [unescSimple, ih]
    by_cases h8 : c.toNat < 32
    · have : escChar c = ['\\', 'u', '0', '0',
          hexDigitChar (c.toNat / 16), hexDigitChar (c.toNat % 16)] := by
        simp [escChar, h1, h2, h3, h4, h5, h6, h7, h8]
      rw [this, parseStrBody.eq_def]
      simp [hexVal4_control h8, ih, Char.ofNat_toNat]
    · have : escChar c = [c] := by
        simp [escChar, h1, h2, h3, h4, h5, h6, h7, h8]
      rw [this, parseStrBody.eq_def]
      simp [h1, h2, h8, ih]

/-! ## A mutual induction principle over the JSON triple, measured by fuel -/

theorem jfuel_pos (v : Json) : 1 ≤ jfuel v := by
  cases v with
  | null => simp [jfuel]
  | bool b => simp [jfuel]
  | num i => simp [jfuel]
  | str s => simp [jfuel]
  | arr xs => cases xs <;> simp [jfuel]
  | obj ms => cases ms <;> simp [jfuel]

theorem json_triple_ind (P : Json → Prop) (Q : JsonList → Prop) (R : JsonMembers → Prop)
    (hnull : P .null) (hbool : ∀ b, P (.bool b)) (hnum : ∀ i, P (.num i))
    (hstr : ∀ s, P (.str s)) (harrnil : P (.arr .nil))
    (harr : ∀ x xs, Q (.cons x xs) → P (.arr (.cons x xs)))
    (hobjnil : P (.obj .nil))
    (hobj : ∀ k v ms, R (.cons k v ms) → P (.obj (.cons k v ms)))
    (qnil : Q .nil) (qcons : ∀ x xs, P x → Q xs → Q (.cons x xs))
    (rnil : R .nil) (rcons : ∀ k v ms, P v → R ms → R (.cons k v ms)) :
    (∀ v, P v) ∧ (∀ xs, Q xs) ∧ (∀ ms, R ms) := by
  have key : ∀ n : Nat, (∀ v, jfuel v ≤ n → P v) ∧ (∀ xs, jfuelE xs ≤ n → Q xs) ∧
      (∀ ms, jfuelM ms ≤ n → R ms) := by
    intro n
    induction n using Nat.strong_induction_on with
    | _ n ih =>
      refine ⟨?_, ?_, ?_⟩
      · intro v hv
        match v with
        | .null => exact hnull
        | .bool b => exact hbool b
        | .num i => exact hnum i
        | .str s => exact hstr s
        | .arr .nil => exact harrnil
        | .arr (.cons x xs) =>
          simp only [jfuel] at hv
          exact harr x xs ((ih (n - 1) (by omega)).2.1 _ (by omega))
        | .obj .nil => exact hobjnil
        | .obj (.cons k v2 ms) =>
          simp only [jfuel] at hv
          exact hobj k v2 ms ((ih (n - 1) (by omega)).2.2 _ (by omega))
      · intro xs hxs
        match xs with
        | .nil => exact qnil
        | .cons x xs2 =>
          simp only [jfuelE] at hxs
          have hx := jfuel_pos x
          exact qcons x xs2 ((ih (n - 1) (by omega)).1 _ (by omega))
            ((ih (n - 1) (by omega)).2.1 _ (by omega))
      · intro ms hms
        match ms with
        | .nil => exact rnil
        | .cons k v2 ms2 =>
          simp only [jfuelM] at hms
          have hx := jfuel_pos v2
          exact rcons k v2 ms2 ((ih (n - 1) (by omega)).1 _ (by omega))
            ((ih (n - 1) (by omega)).2.2 _ (by omega))
  exact ⟨fun v => (key (jfuel v)).1 v le_rfl,
         fun xs => (key (jfuelE xs)).2.1 xs le_rfl,
         fun ms => (key (jfuelM ms)).2.2 ms le_rfl⟩

/-! ## Lemmas: printer/parser round trip -/

def strElemsFull : JsonList → List Char
  | .nil => []
  | .cons x xs => strV x ++ strElemsTail xs

def strMembersFull : JsonMembers → List Char
  | .nil => []
  | .cons k v ms => strMember k v ++ strMembersTail ms

theorem strV_head (v : Json) : ∃ c t, strV v = c :: t ∧ c ≠ ']' ∧ c ≠ '\x7d' := by
  cases v with
  | null => exact ⟨'n', _, rfl, by decide, by decide⟩
  | bool b =>
    cases b with
    | true => exact ⟨'t', ['r', 'u', 'e'], by simp [strV], by decide, by decide⟩
    | false => exact ⟨'f', ['a', 'l', 's', 'e'], by simp [strV], by decide, by decide⟩
  | num i =>
    show ∃ c t, intRepr i = c :: t ∧ _
    unfold intRepr
    split
    · exact ⟨'-', _, rfl, by decide, by decide⟩
    · obtain ⟨c, t, hct⟩ := List.exists_cons_of_ne_nil (natDigits_ne_nil i.toNat)
      have hd : c.isDigit = true := natDigits_all_digit _ c (by rw [hct]; simp)
      refine ⟨c, t, hct, fun h => ?_, fun h => ?_⟩
      · rw [h] at hd
        exact absurd hd (by decide)
      · rw [h] at hd
        exact absurd hd (by decide)
  | str s => exact ⟨'\x22', _, rfl, by decide, by decide⟩
  | arr xs => cases xs <;> exact ⟨'[', _, rfl, by decide, by decide⟩
  | obj ms => cases ms <;> exact ⟨'\x7b', _, rfl, by decide, by decide⟩

theorem notDigitStart_elems (xs : JsonList) (rest : List Char) :
    notDigitStart (strElemsTail xs ++ ']' :: rest) = true := by
  cases xs <;> simp [strElemsTail, notDigitStart]

theorem notDigitStart_members (ms : JsonMembers) (rest : List Char) :
    notDigitStart (strMembersTail ms ++ '\x7d' :: rest) = true := by
  cases ms <;> simp [strMembersTail, notDigitStart]

theorem parseElems_succ (f : Nat) (X : List Char) :
    parseElems (f + 1) X = (parseVal f X).bind (fun p =>
      if p.2.take 1 = [','] then
        (parseElems f (p.2.drop 1)).map (fun q => (.cons p.1 q.1, q.2))
      else some (.cons p.1 .nil, p.2)) := rfl

theorem parseMembers_succ (f : Nat) (X : List Char) :
    parseMembers (f + 1) X =
    (if X.take 1 = ['\x22'] then
      (parseStrBody (X.drop 1)).bind (fun pk =>
        if pk.2.take 1 = [':'] then
          (parseVal f (pk.2.drop 1)).bind (fun pv =>
            if pv.2.take 1 = [','] then
              (parseMembers f (pv.2.drop 1)).map (fun q => (.cons pk.1 pv.1 q.1, q.2))
            else some (.cons pk.1 pv.1 .nil, pv.2))
        else none)
    else none) := rfl

theorem parseVal_digits (f n : Nat) (rest : List Char) (hnds : notDigitStart rest = true) :
    parseVal (f + 1) (natDigits n ++ rest) = some (.num (n : Int), rest) := by
  obtain ⟨c, t, hct⟩ := List.exists_cons_of_ne_nil (natDigits_ne_nil n)
  have hd : c.isDigit = true := natDigits_all_digit _ c (by rw [hct]; simp)
  have hc1 : ¬ c = 'n' := fun h => absurd hd (by rw [h]; decide)
  have hc2 : ¬ c = 't' := fun h => absurd hd (by rw [h]; decide)
  have hc3 : ¬ c = 'f' := fun h => absurd hd (by rw [h]; decide)
  have hc4 : ¬ c = '\x22' := fun h => absurd hd (by rw [h]; decide)
  have hc5 : ¬ c = '[' := fun h => absurd hd (by rw [h]; decide)
  have hc6 : ¬ c = '\x7b' := fun h => absurd hd (by rw [h]; decide)
  have hc7 : ¬ c = '-' := fun h => absurd hd (by rw [h]; decide)
  rw [hct, List.cons_append, parseVal.eq_def]
  simp only [if_neg hc1, if_neg hc2, if_neg hc3, if_neg hc4, if_neg hc5, if_neg hc6,
    if_neg hc7, if_pos hd]
  rw [← List.cons_append, ← hct, parsePosNum_natDigits n rest hnds]
  rfl

theorem parse_round :
    (∀ v : Json, ∀ fuel rest, jfuel v ≤ fuel → notDigitStart rest = true →
       parseVal fuel (strV v ++ rest) = some (v, rest)) ∧
    (∀ xs : JsonList, ∀ fuel rest, jfuelE xs ≤ fuel → xs ≠ JsonList.nil →
       parseElems fuel (strElemsFull xs ++ ']' :: rest) = some (xs, ']' :: rest)) ∧
    (∀ ms : JsonMembers, ∀ fuel rest, jfuelM ms ≤ fuel → ms ≠ JsonMembers.nil →
       parseMembers fuel (strMembersFull ms ++ '\x7d' :: rest) = some (ms, '\x7d' :: rest)) := by
  refine json_triple_ind _ _ _ ?_ ?_ ?_ ?_ ?_ ?_ ?_ ?_ ?_ ?_ ?_ ?_
  · -- null
    intro fuel rest hf hnds
    cases fuel with
    | zero => simp only [jfuel] at hf; omega
    | succ f =>
      rw [parseVal.eq_def]
      simp [strV, expect, List.isPrefixOf]
  · -- bool
    intro b fuel rest hf hnds
    cases fuel with
    | zero => simp only [jfuel] at hf; omega
    | succ f =>
      cases b <;>
        · rw [parseVal.eq_def]
          simp [strV, expect, List.isPrefixOf]
  · -- num
    intro i fuel rest hf hnds
    cases fuel with
    | zero => simp only [jfuel] at hf; omega
    | succ f =>
      show parseVal (f + 1) (intRepr i ++ rest) = some (.num i, rest)
      by_cases hi : i < 0
      · rw [intRepr, if_pos hi, List.cons_append, parseVal.eq_def]
        simp only [if_neg (by decide : ¬ ('-' : Char) = 'n'),
          if_neg (by decide : ¬ ('-' : Char) = 't'),
          if_neg (by decide : ¬ ('-' : Char) = 'f'),
          if_neg (by decide : ¬ ('-' : Char) = '\x22'),
          if_neg (by decide : ¬ ('-' : Char) = '['),
          if_neg (by decide : ¬ ('-' : Char) = '\x7b'),
          if_pos (rfl : ('-' : Char) = '-')]
        rw [parsePosNum_natDigits _ _ hnds]
        simp only [Option.map_some']
        rw [show -((i.natAbs : Nat) : Int) = i from by omega]
        simp
      · rw [intRepr, if_neg hi]
        have hcast : ((i.toNat : Nat) : Int) = i := Int.toNat_of_nonneg (by omega)
        rw [← hcast]
        exact parseVal_digits f i.toNat rest hnds
  · -- str
    intro s fuel rest hf hnds
    cases fuel with
    | zero => simp only [jfuel] at hf; omega
    | succ f =>
      rw [parseVal.eq_def]
      simp only [strV, List.cons_append, List.append_assoc]
      simp [parseStrBody_escList]
  · -- arr nil
    intro fuel rest hf hnds
    cases fuel with
    | zero => simp only [jfuel] at hf; omega
    | succ f =>
      rw [parseVal.eq_def]
      simp [strV]
  · -- arr cons
    intro x xs hQ fuel rest hf hnds
    cases fuel with
    | zero => simp only [jfuel, jfuelE] at hf; omega
    | succ f =>
      have hshape : strV (.arr (.cons x xs)) ++ rest =
          '[' :: (strElemsFull (.cons x xs) ++ ']' :: rest) := by
        simp [strV, strElemsFull, List.append_assoc]
      rw [hshape, parseVal.eq_def]
      obtain ⟨c, t, hct, hc1, hc2⟩ := strV_head x
      have hhead : strElemsFull (.cons x xs) ++ ']' :: rest =
          c :: (t ++ strElemsTail xs ++ ']' :: rest) := by
        simp [strElemsFull, hct, List.append_assoc]
      have htake : (strElemsFull (.cons x xs) ++ ']' :: rest).take 1 ≠ [']'] := by
        rw [hhead]
        simp [List.take, hc1]
      have hE := hQ f rest (by simp only [jfuel, jfuelE] at hf ⊢; omega) (by exact nofun)
      simp only [if_neg (by decide : ¬ ('[' : Char) = 'n'),
        if_neg (by decide : ¬ ('[' : Char) = 't'),
        if_neg (by decide : ¬ ('[' : Char) = 'f'),
        if_neg (by decide : ¬ ('[' : Char) = '\x22'),
        if_pos (rfl : ('[' : Char) = '['), if_neg htake]
      rw [hE]
      simp [List.take, List.drop]
  · -- obj nil
    intro fuel rest hf hnds
    cases fuel with
    | zero => simp only [jfuel] at hf; omega
    | succ f =>
      rw [parseVal.eq_def]
      simp [strV]
  · -- obj cons
    intro k v ms hR fuel rest hf hnds
    cases fuel with
    | zero => simp only [jfuel, jfuelM] at hf; omega
    | succ f =>
      have hshape : strV (.obj (.cons k v ms)) ++ rest =
          '\x7b' :: (strMembersFull (.cons k v ms) ++ '\x7d' :: rest) := by
        simp [strV, strMembersFull, strMember, List.append_assoc]
      rw [hshape, parseVal.eq_def]
      have htake : (strMembersFull (.cons k v ms) ++ '\x7d' :: rest).take 1 ≠ ['\x7d'] := by
        simp [strMembersFull, strMember, List.take]
      have hM := hR f rest (by simp only [jfuel, jfuelM] at hf ⊢; omega) (by exact nofun)
      simp only [if_neg (by decide : ¬ ('\x7b' : Char) = 'n'),
        if_neg (by decide : ¬ ('\x7b' : Char) = 't'),
        if_neg (by decide : ¬ ('\x7b' : Char) = 'f'),
        if_neg (by decide : ¬ ('\x7b' : Char) = '\x22'),
        if_neg (by decide : ¬ ('\x7b' : Char) = '['),
        if_pos (rfl : ('\x7b' : Char) = '\x7b'), if_neg htake]
      rw [hM]
      simp [List.take, List.drop]
  · -- elems nil
    intro fuel rest hf hne
    exact absurd rfl hne
  · -- elems cons
    intro x xs hP hQ fuel rest hf hne
    cases fuel with
    | zero => simp only [jfuelE] at hf; omega
    | succ f =>
      simp only [jfuelE] at hf
      have hshape : strElemsFull (.cons x xs) ++ ']' :: rest =
          strV x ++ (strElemsTail xs ++ ']' :: rest) := by
        simp [strElemsFull, List.append_assoc]
      rw [hshape]
      rw [parseElems_succ]
      rw [hP f _ (by omega) (notDigitStart_elems xs rest)]
      cases xs with
      | nil =>
        simp [strElemsTail, List.take]
      | cons y ys =>
        have htail : strElemsTail (.cons y ys) ++ ']' :: rest =
            ',' :: (strElemsFull (.cons y ys) ++ ']' :: rest) := by
          simp [strElemsTail, strElemsFull, List.append_assoc]
        rw [htail]
        simp only [Option.some_bind]
        rw [if_pos (by simp [List.take])]
        simp only [List.drop_succ_cons, List.drop_zero]
        rw [hQ f rest (by simp only [jfuelE] at hf ⊢; omega) (by exact nofun)]
        rfl
  · -- members nil
    intro fuel rest hf hne
    exact absurd rfl hne
  · -- members cons
    intro k v ms hP hR fuel rest hf hne
    cases fuel with
    | zero => simp only [jfuelM] at hf; omega
    | succ f =>
      simp only [jfuelM] at hf
      have hshape : strMembersFull (.cons k v ms) ++ '\x7d' :: rest =
          '\x22' :: (escList k ++ '\x22' ::
            (':' :: (strV v ++ (strMembersTail ms ++ '\x7d' :: rest)))) := by
        simp [strMembersFull, strMember, List.append_assoc]
      rw [hshape]
      rw [parseMembers_succ]
      rw [if_pos (by simp [List.take])]
      simp only [List.drop_succ_cons, List.drop_zero]
      rw [parseStrBody_escList k (':' :: (strV v ++ (strMembersTail ms ++ '\x7d' :: rest)))]
      simp only [Option.some_bind]
      rw [if_pos (by simp [List.take])]
      simp only [List.drop_succ_cons, List.drop_zero]
      rw [hP f _ (by omega) (notDigitStart_members ms rest)]
      cases ms with
      | nil =>
        simp [strMembersTail, List.take]
      | cons k2 v2 ms2 =>
        have htail : strMembersTail (.cons k2 v2 ms2) ++ '\x7d' :: rest =
            ',' :: (strMembersFull (.cons k2 v2 ms2) ++ '\x7d' :: rest) := by
          simp [strMembersTail, strMembersFull, strMember, List.append_assoc]
        rw [htail]
        simp only [Option.some_bind]
        rw [if_pos (by simp [List.take])]
        simp only [List.drop_succ_cons, List.drop_zero]
        rw [hR f rest (by simp only [jfuelM] at hf ⊢; omega) (by exact nofun)]
        rfl

theorem jfuel_le_length :
    (∀ v : Json, jfuel v ≤ (strV v).length) ∧
    (∀ xs : JsonList, jfuelE xs ≤ (strElemsTail xs).length) ∧
    (∀ ms : JsonMembers, jfuelM ms ≤ (strMembersTail ms).length) := by
  refine json_triple_ind _ _ _ ?_ ?_ ?_ ?_ ?_ ?_ ?_ ?_ ?_ ?_ ?_ ?_
  · simp [jfuel, strV]
  · intro b
    cases b <;> simp [jfuel, strV]
  · intro i
    have h1 := natDigits_ne_nil i.natAbs
    have h2 := natDigits_ne_nil i.toNat
    have h1p := List.length_pos.mpr h1
    have h2p := List.length_pos.mpr h2
    simp only [jfuel, strV, intRepr]
    split
    · simp
    · simp
      omega
  · intro s
    simp [jfuel, strV]
  · simp [jfuel, strV]
  · intro x xs hQ
    simp only [jfuel, strV, strElemsTail, List.length_cons, List.length_append] at hQ ⊢
    omega
  · simp [jfuel, strV]
  · intro k v ms hR
    simp only [jfuel, strV, strMembersTail, strMember, List.length_cons,
      List.length_append] at hR ⊢
    omega
  · simp [jfuelE, strElemsTail]
  · intro x xs hP hQ
    simp only [jfuelE, strElemsTail, List.length_cons, List.length_append]
    omega
  · simp [jfuelM, strMembersTail]
  · intro k v ms hP hR
    simp only [jfuelM, strMembersTail, strMember, List.length_cons, List.length_append]
    omega

theorem strV_not_newline :
    (∀ v : Json, '\n' ∉ strV v) ∧
    (∀ xs : JsonList, '\n' ∉ strElemsTail xs) ∧
    (∀ ms : JsonMembers, '\n' ∉ strMembersTail ms) := by
  refine json_triple_ind _ _ _ ?_ ?_ ?_ ?_ ?_ ?_ ?_ ?_ ?_ ?_ ?_ ?_
  · decide
  · intro b
    cases b <;> decide
  · intro i
    simp only [strV, intRepr]
    split
    · intro hmem
      rcases List.mem_cons.mp hmem with h | h
      · exact absurd h (by decide)
      · exact absurd (natDigits_all_digit _ _ h) (by decide)
    · intro hmem
      exact absurd (natDigits_all_digit _ _ hmem) (by decide)
  · intro s
    simp only [strV, List.mem_cons, List.mem_append, List.mem_singleton]
    rintro (h | h | h)
    · exact absurd h (by decide)
    · exact escList_not_newline s h
    · exact absurd h (by decide)
  · decide
  · intro x xs hQ
    simp only [strElemsTail, List.mem_cons, List.mem_append] at hQ
    simp only [strV, List.mem_cons, List.mem_append, List.mem_singleton]
    rintro (h | (h | h) | h)
    · exact absurd h (by decide)
    · exact hQ (Or.inr (Or.inl h))
    · exact hQ (Or.inr (Or.inr h))
    · exact absurd h (by decide)
  · decide
  · intro k v ms hR
    simp only [strMembersTail, strMember, List.mem_cons, List.mem_append] at hR
    simp only [strV, List.mem_cons, List.mem_append, List.mem_singleton]
    rintro (h | (h | h) | h)
    · exact absurd h (by decide)
    · exact hR (Or.inr (Or.inl h))
    · exact hR (Or.inr (Or.inr h))
    · exact absurd h (by decide)
  · decide
  · intro x xs hP hQ
    simp only [strElemsTail, List.mem_cons, List.mem_append]
    rintro (h | h | h)
    · exact absurd h (by decide)
    · exact hP h
    · exact hQ h
  · decide
  · intro k v ms hP hR
    simp only [strMembersTail, strMember, List.mem_cons, List.mem_append,
      List.mem_singleton]
    rintro (h | (h | h | h) | h)
    · exact absurd h (by decide)
    · exact absurd h (by decide)
    · exact escList_not_newline k h
    · rcases h with h2 | h2 | h2
      · exact absurd h2 (by decide)
      · exact absurd h2 (by decide)
      · exact hP h2
    · exact hR h

/-- `JSON.parse` inverts `JSON.stringify`: the decoder recovers exactly the
value the harness serialized. -/
theorem jsonParse_strV (v : Json) : jsonParse (strV v) = some v := by
  have hlen := jfuel_le_length.1 v
  have h := parse_round.1 v ((strV v).length + 1) [] (by omega) (by rfl)
  rw [List.append_nil] at h
  unfold jsonParse
  rw [h]

/-! ## Lemmas: `indexOf` and the sentinel's first occurrence -/

theorem firstIdx_none_isPrefixOf {s pat : List Char} (hnil : pat ≠ [])
    (h : firstIdx s pat = none) : ∀ j, pat.isPrefixOf (s.drop j) = false := by
  induction s with
  | nil =>
    intro j
    rw [List.drop_nil]
    cases pat with
    | nil => exact absurd rfl hnil
    | cons c t => rfl
  | cons c t ih =>
    rw [firstIdx] at h
    split at h
    · exact absurd h (by simp)
    · next hpf =>
      have ht : firstIdx t pat = none := by
        cases hef : firstIdx t pat with
        | none => rfl
        | some m => rw [hef] at h; simp at h
      intro j
      cases j with
      | zero =>
        rw [List.drop_zero]
        exact Bool.eq_false_iff.mpr hpf
      | succ j2 =>
        rw [List.drop_succ_cons]
        exact ih ht j2

theorem firstIdx_some_of {s pat : List Char} (hnil : pat ≠ []) (n : Nat)
    (h1 : pat.isPrefixOf (s.drop n) = true)
    (h2 : ∀ j, j < n → pat.isPrefixOf (s.drop j) = false) :
    firstIdx s pat = some n := by
  induction s generalizing n with
  | nil =>
    rw [List.drop_nil] at h1
    cases pat with
    | nil => exact absurd rfl hnil
    | cons c t => exact absurd h1 (by simp [List.isPrefixOf])
  | cons c t ih =>
    cases n with
    | zero =>
      rw [List.drop_zero] at h1
      rw [firstIdx, if_pos h1]
    | succ m =>
      have h0 := h2 0 (by omega)
      rw [List.drop_zero] at h0
      rw [firstIdx, if_neg (by rw [h0]; exact Bool.false_ne_true)]
      rw [List.drop_succ_cons] at h1
      rw [ih m h1 (fun j hj => by
        have := h2 (j + 1) (by omega)
        rwa [List.drop_succ_cons] at this)]
      rfl

theorem firstIdx_marker (pre tail : List Char)
    (hpre : firstIdx pre returnMarker = none) :
    firstIdx (pre ++ (returnMarker ++ tail)) returnMarker = some pre.length := by
  have hnil : returnMarker ≠ [] := by decide
  apply firstIdx_some_of hnil
  · rw [List.drop_left]
    rw [ List.isPrefixOf_iff_prefix]
    exact ⟨tail, rfl⟩
  · intro j hj
    rw [Bool.eq_false_iff]
    intro htrue
    have hdrop : (pre ++ (returnMarker ++ tail)).drop j
        = pre.drop j ++ (returnMarker ++ tail) := by
      rw [List.drop_append_eq_append_drop]
      rw [show j - pre.length = 0 from by omega, List.drop_zero]
    rw [hdrop, List.isPrefixOf_iff_prefix] at htrue
    obtain ⟨t, ht⟩ := htrue
    set w := pre.drop j with hw
    have hwlen : w.length = pre.length - j := List.length_drop _ _
    have hwpos : 0 < w.length := by omega
    by_cases hk : returnMarker.length ≤ w.length
    · have htake : (returnMarker ++ t).take returnMarker.length
          = (w ++ (returnMarker ++ tail)).take returnMarker.length := by rw [ht]
      rw [List.take_left] at htake
      rw [List.take_append_eq_append_take,
        show returnMarker.length - w.length = 0 from by omega,
        List.take_zero, List.append_nil] at htake
      have hpf : returnMarker.isPrefixOf w = true := by
        rw [ List.isPrefixOf_iff_prefix]
        have h2 : w.take returnMarker.length ++ w.drop returnMarker.length = w :=
          List.take_append_drop _ _
        rw [← htake] at h2
        exact ⟨_, h2⟩
      have hno := firstIdx_none_isPrefixOf hnil hpre j
      rw [← hw] at hno
      rw [hno] at hpf
      exact Bool.false_ne_true hpf
    · push_neg at hk
      have htk : (returnMarker ++ t).take w.length
          = (w ++ (returnMarker ++ tail)).take w.length := by rw [ht]
      rw [List.take_append_eq_append_take,
        show w.length - returnMarker.length = 0 from by omega, List.take_zero,
        List.append_nil] at htk
      rw [List.take_append_eq_append_take, Nat.sub_self, List.take_zero,
        List.append_nil, List.take_length] at htk
      have htM : (returnMarker ++ t).take returnMarker.length
          = (w ++ (returnMarker ++ tail)).take returnMarker.length := by rw [ht]
      rw [List.take_left] at htM
      rw [List.take_append_eq_append_take] at htM
      have hwfull : w.take returnMarker.length = w := by
        apply List.take_of_length_le
        omega
      rw [hwfull] at htM
      rw [List.take_append_eq_append_take,
        show returnMarker.length - w.length - returnMarker.length = 0 from by omega,
        List.take_zero, List.append_nil] at htM
      have hborder : ∀ k, k < returnMarker.length → 0 < k →
          returnMarker ≠ returnMarker.take k ++ returnMarker.take (returnMarker.length - k) := by
        decide
      exact hborder w.length (by omega) hwpos (by rw [htk]; exact htM)

theorem charIdx_append_newline (p post : List Char) (hp : '\n' ∉ p) :
    charIdx (p ++ '\n' :: post) '\n' = some p.length := by
  induction p with
  | nil =>
    rw [List.nil_append]
    rw [charIdx, firstIdx, if_pos (by simp [List.isPrefixOf])]
    rfl
  | cons c t ih =>
    have hc : ¬ ('\n' : Char) = c := fun h => hp (by rw [h]; simp)
    rw [List.cons_append, charIdx, firstIdx]
    rw [if_neg (by simp [List.isPrefixOf, hc])]
    have iht := ih (fun h => hp (List.mem_cons_of_mem c h))
    rw [charIdx] at iht
    rw [iht]
    rfl

theorem charIdx_none_of_not_mem (p : List Char) (hp : '\n' ∉ p) :
    charIdx p '\n' = none := by
  induction p with
  | nil => rfl
  | cons c t ih =>
    have hc : ¬ ('\n' : Char) = c := fun h => hp (by rw [h]; simp)
    rw [charIdx, firstIdx]
    rw [if_neg (by simp [List.isPrefixOf, hc])]
    have iht := ih (fun h => hp (List.mem_cons_of_mem c h))
    rw [charIdx] at iht
    rw [iht]
    rfl

/-! ## Lemmas: the decoder on a sentinel-bearing stream -/

theorem containsSub_false_firstIdx {s : List Char}
    (h : containsSub s returnMarker = false) : firstIdx s returnMarker = none := by
  rw [containsSub] at h
  cases hf : firstIdx s returnMarker with
  | none => rfl
  | some m => rw [hf] at h; simp at h

theorem decode_split (pre payload post : List Char)
    (hpre : containsSub pre returnMarker = false)
    (hnl : '\n' ∉ payload) :
    decodeStdout (pre ++ (returnMarker ++ (payload ++ '\n' :: post)))
      = (jsonParse payload, pre ++ post) := by
  have hfi := containsSub_false_firstIdx hpre
  have hmark := firstIdx_marker pre (payload ++ '\n' :: post) hfi
  have hdrop : (pre ++ (returnMarker ++ (payload ++ '\n' :: post))).drop
      (pre.length + returnMarker.length) = payload ++ '\n' :: post := by
    rw [← List.append_assoc, ← List.length_append]
    exact List.drop_left _ _
  have htakepre : (pre ++ (returnMarker ++ (payload ++ '\n' :: post))).take pre.length
      = pre := List.take_left _ _
  have hcharIdx := charIdx_append_newline payload post hnl
  have htakepl : (payload ++ '\n' :: post).take payload.length = payload :=
    List.take_left _ _
  have hdroppl : (payload ++ '\n' :: post).drop (payload.length + 1) = post := by
    rw [show payload ++ '\n' :: post = (payload ++ ['\n']) ++ post from by simp,
      show payload.length + 1 = (payload ++ ['\n']).length from by simp]
    exact List.drop_left _ _
  unfold decodeStdout
  rw [hmark]
  simp only [hdrop, hcharIdx, htakepre, htakepl, hdroppl]

theorem decode_split_end (pre payload : List Char)
    (hpre : containsSub pre returnMarker = false)
    (hnl : '\n' ∉ payload) :
    decodeStdout (pre ++ (returnMarker ++ payload)) = (jsonParse payload, pre) := by
  have hfi := containsSub_false_firstIdx hpre
  have hmark := firstIdx_marker pre payload hfi
  have hdrop : (pre ++ (returnMarker ++ payload)).drop
      (pre.length + returnMarker.length) = payload := by
    rw [← List.append_assoc, ← List.length_append]
    exact List.drop_left _ _
  have htakepre : (pre ++ (returnMarker ++ payload)).take pre.length = pre :=
    List.take_left _ _
  have hcharIdx := charIdx_none_of_not_mem payload hnl
  unfold decodeStdout
  rw [hmark]
  simp only [hdrop, hcharIdx, htakepre]

theorem decode_no_marker (s : List Char)
    (h : containsSub s returnMarker = false) : decodeStdout s = (none, s) := by
  unfold decodeStdout
  rw [containsSub_false_firstIdx h]

/-! ## Lemmas: the splitter loop as a filter -/

theorem splitLoop_spec (home : List Char) (lines : List (List Char)) :
    (splitLoop home lines).imports
        = (lines.filter (fun l => isImportLine l)).map (expandLine home)
    ∧ (splitLoop home lines).codeLines = lines.filter (fun l => !isImportLine l) := by
  induction lines with
  | nil => exact ⟨rfl, rfl⟩
  | cons l ls ih =>
    by_cases h : isImportLine l
    · constructor
      · simp [splitLoop, h, List.filter_cons, ih.1]
      · simp [splitLoop, h, List.filter_cons, ih.2]
    · constructor
      · simp [splitLoop, h, List.filter_cons, ih.1]
      · simp [splitLoop, h, List.filter_cons, ih.2]

theorem filter_partition_length (p : List Char → Bool) (lines : List (List Char)) :
    (lines.filter p).length + (lines.filter (fun l => !p l)).length = lines.length := by
  induction lines with
  | nil => rfl
  | cons l ls ih =>
    by_cases h : p l
    · simp only [List.filter_cons, h, if_true]
      rw [if_neg (by simp [h])]
      simp only [List.length_cons]
      omega
    · simp only [List.filter_cons]
      rw [if_neg (by simp [h]), if_pos (by simp [h])]
      simp only [List.length_cons]
      omega

/-! ## The claims -/

/-- Claim C1: for a body whose resolved value is a plain JSON-serializable
value `v`, executing the harness and decoding its captured stdout yields
`returnValue = v` — the decoder's `JSON.parse` inverts the harness's
`JSON.stringify` on the payload line.  The hypothesis is the sentinel
protocol's precondition that the body's own logging does not contain the
token (section 9 of the spec flags this as the protocol's known fragility). -/
theorem spec_C1 (logs : List (List Char)) (v : Json)
    (h : containsSub (logsOut logs) returnMarker = false) :
    (decodeStdout (harnessStdout logs (some (JsValue.json v)))).1 = some v := by
  have hshape : harnessStdout logs (some (JsValue.json v))
      = logsOut logs ++ (returnMarker ++ (strV v ++ '\n' :: [])) := by
    simp [harnessStdout, sentinelPayload, List.append_assoc]
  rw [hshape, decode_split _ _ _ h (strV_not_newline.1 v)]
  simp [jsonParse_strV]

theorem spec_C1_witness :
    (decodeStdout (harnessStdout ["hi".data]
        (some (JsValue.json (.arr (.cons (.num 42) (.cons (.str "ok".data) .nil))))))).1
      = some (.arr (.cons (.num 42) (.cons (.str "ok".data) .nil))) :=
  spec_C1 ["hi".data] (.arr (.cons (.num 42) (.cons (.str "ok".data) .nil))) (by decide)

/-- Claim C2 (code bug): the source replaces both `'~/` and `"~/` with a
hard-coded single quote (`'${homeDir}/`), so an import written with double
quotes does not keep its opening double quote — it becomes a single quote and
the quotes end up mismatched.  First conjunct: the double-quoted failing
input; second: the single-quoted case, where the claim's behaviour holds. -/
theorem spec_C2_code :
    expandLine "/home/u".data "import \x7b x \x7d from \x22~/skills/a.js\x22;".data
      = "import \x7b x \x7d from \x27/home/u/skills/a.js\x22;".data
    ∧ expandLine "/home/u".data "import \x7b x \x7d from \x27~/skills/a.js\x27;".data
      = "import \x7b x \x7d from \x27/home/u/skills/a.js\x27;".data := by
  constructor
  · simp [expandLine]
  · simp [expandLine]

/-- Claim C3: in the synthesized harness the sentinel statement sits after the
wrapped body block; the line it emits is the fixed token immediately followed
by the encoded payload with no intervening whitespace; body logs precede the
sentinel line; and if the body throws, no sentinel line is emitted (the
observable-output part is the modelled harness semantics `harnessStdout`). -/
theorem spec_C3 (imports codeLines logs : List (List Char)) (v : JsValue)
    (h : containsSub (logsOut logs) returnMarker = false) :
    wrappedCode imports codeLines
      = (harnessHead.data ++ joinNl imports ++ harnessMid1.data ++ joinNl codeLines
          ++ harnessMid2.data) ++ sentinelStmt.data ++ harnessTail.data
    ∧ sentinelStmt.data
      = "console.log(\x27".data ++ returnMarker ++ "\x27 + JSON.stringify(__result));".data
    ∧ harnessStdout logs (some v)
      = logsOut logs ++ returnMarker ++ sentinelPayload v ++ ['\n']
    ∧ harnessStdout logs none = logsOut logs
    ∧ containsSub (harnessStdout logs none) returnMarker = false := by
  refine ⟨?_, rfl, ?_, ?_, ?_⟩
  · simp [wrappedCode, List.append_assoc]
  · simp [harnessStdout, List.append_assoc]
  · simp [harnessStdout]
  · simpa [harnessStdout] using h

theorem spec_C3_witness :
    wrappedCode ["i".data] ["b".data]
      = (harnessHead.data ++ joinNl ["i".data] ++ harnessMid1.data ++ joinNl ["b".data]
          ++ harnessMid2.data) ++ sentinelStmt.data ++ harnessTail.data
    ∧ harnessStdout ["x".data] none = logsOut ["x".data] :=
  ⟨(spec_C3 ["i".data] ["b".data] ["x".data] JsValue.undef (by decide)).1,
   (spec_C3 ["i".data] ["b".data] ["x".data] JsValue.undef (by decide)).2.2.2.1⟩

/-- Claim C4: the splitter partitions the lines of the input so that a line
goes to `imports` exactly when, ignoring leading whitespace, it begins with
the `import` keyword followed by whitespace; all other lines go to the body
untouched; both groups keep the original order (`filter` preserves order) and
every line lands in exactly one group. -/
theorem spec_C4 (home code : List Char) :
    (splitSource home code).imports
      = ((splitNl code).filter (fun l => isImportLine l)).map (expandLine home)
    ∧ (splitSource home code).codeLines
      = (splitNl code).filter (fun l => !isImportLine l)
    ∧ (splitSource home code).imports.length + (splitSource home code).codeLines.length
      = (splitNl code).length := by
  refine ⟨(splitLoop_spec home (splitNl code)).1, (splitLoop_spec home (splitNl code)).2, ?_⟩
  rw [show splitSource home code = splitLoop home (splitNl code) from rfl,
    (splitLoop_spec home (splitNl code)).1, (splitLoop_spec home (splitNl code)).2,
    List.length_map]
  exact filter_partition_length _ _

/-- Claim C5: the decoder honours only the first occurrence of the sentinel
token: the payload candidate runs from just after the token to the next line
break (first conjunct) or to the end of text when there is none (second), and
the cleaned stdout is the original text with the token and its payload line
excised, keeping everything before the token and after the payload's line
break. -/
theorem spec_C5 (pre payload post : List Char)
    (hpre : containsSub pre returnMarker = false)
    (hnl : '\n' ∉ payload) :
    decodeStdout (pre ++ (returnMarker ++ (payload ++ '\n' :: post)))
      = (jsonParse payload, pre ++ post)
    ∧ decodeStdout (pre ++ (returnMarker ++ payload))
      = (jsonParse payload, pre) :=
  ⟨decode_split pre payload post hpre hnl, decode_split_end pre payload hpre hnl⟩

theorem spec_C5_witness :
    decodeStdout ("log\n".data ++ (returnMarker ++ ("42".data ++ '\n' :: "tail".data)))
      = (some (Json.num 42), "log\ntail".data)
    ∧ decodeStdout ("log\n".data ++ (returnMarker ++ "42".data))
      = (some (Json.num 42), "log\n".data) := by
  have h := spec_C5 "log\n".data "42".data "tail".data (by decide) (by decide)
  exact ⟨h.1, h.2⟩

/-- Claim C6: the decoder never fails the call — with no sentinel token the
result is `returnValue` absent and stdout unchanged, and with a token whose
payload does not deserialize the result is `returnValue` absent rather than
an error. -/
theorem spec_C6 (s pre payload post : List Char)
    (habs : containsSub s returnMarker = false)
    (hpre : containsSub pre returnMarker = false)
    (hnl : '\n' ∉ payload)
    (hbad : jsonParse payload = none) :
    decodeStdout s = (none, s)
    ∧ (decodeStdout (pre ++ (returnMarker ++ (payload ++ '\n' :: post)))).1 = none := by
  refine ⟨decode_no_marker s habs, ?_⟩
  rw [decode_split pre payload post hpre hnl]
  simpa using hbad

theorem spec_C6_witness :
    decodeStdout "plain output".data = (none, "plain output".data)
    ∧ (decodeStdout ("x\n".data ++ (returnMarker ++ ("notjson".data ++ '\n' :: [])))).1
      = none := by
  have h := spec_C6 "plain output".data "x\n".data "notjson".data []
    (by decide) (by decide) (by decide) (by rfl)
  exact ⟨h.1, h.2⟩

/-- Claim C7: once the workspace was created, the removal step runs on every
exit path of `execute` (it is the final filesystem action no matter which
oracle outcome occurred), and the guarded cleanup never raises — its outcome
can never change the primary result. -/
theorem spec_C7 (env : ExecEnv) (ec : Int) (rm rm1 rm2 : Except (List Char) Unit) :
    (executeTop (.ok ()) env ec rm).2.getLast? = some FsEvent.rmDir
    ∧ (executeModel env ec rm1).1 = (executeModel env ec rm2).1
    ∧ cleanupStep rm = .ok () := by
  refine ⟨?_, ?_, ?_⟩
  · show (FsEvent.mkdtempDir :: ((executeBody env ec).2 ++ [FsEvent.rmDir])).getLast? = _
    rw [← List.cons_append]
    exact List.getLast?_concat _
  · show tryFinallyExec (executeBody env ec).1 (cleanupStep rm1)
        = tryFinallyExec (executeBody env ec).1 (cleanupStep rm2)
    cases rm1 <;> cases rm2 <;> rfl
  · cases rm <;> rfl

/-- Claim C8: user-code faults come back as data — with the infrastructure
healthy, a child that produced no sentinel (parse error or throw) still
yields a normal result object with `returnValue` absent and the diagnostics
in stderr; the child's exit code is never inspected; whereas spawn failures
and temp-directory-creation failures propagate as exceptions. -/
theorem spec_C8 (out err e : List Char) (env : ExecEnv) (ec ec1 ec2 : Int)
    (rm : Except (List Char) Unit)
    (h : containsSub out returnMarker = false) :
    (executeModel ⟨.ok (), .ok (), .ok out, .ok err⟩ ec rm).1
      = .ok ⟨none, out, err⟩
    ∧ executeModel env ec1 rm = executeModel env ec2 rm
    ∧ (executeModel ⟨.ok (), .error e, env.stdoutRead, env.stderrRead⟩ ec rm).1 = .error e
    ∧ executeTop (.error e) env ec rm = (.error e, []) := by
  refine ⟨?_, rfl, ?_, rfl⟩
  · show tryFinallyExec
        (.ok ⟨(decodeStdout out).1, (decodeStdout out).2, err⟩) (cleanupStep rm) = _
    rw [decode_no_marker out h]
    cases rm <;> rfl
  · cases rm <;> rfl

theorem spec_C8_witness :
    (executeModel ⟨.ok (), .ok (), .ok "SyntaxError noise\n".data, .ok "boom".data⟩
        3 (.error "rm failed".data)).1
      = .ok ⟨none, "SyntaxError noise\n".data, "boom".data⟩
    ∧ executeTop (.error "mkdtemp failed".data)
        ⟨.ok (), .ok (), .ok [], .ok []⟩ 0 (.ok ())
      = (.error "mkdtemp failed".data, []) := by
  have h := spec_C8 "SyntaxError noise\n".data "boom".data "mkdtemp failed".data
    ⟨.ok (), .ok (), .ok [], .ok []⟩ 3 0 0 (.error "rm failed".data) (by decide)
  have h2 := spec_C8 [] [] "mkdtemp failed".data
    ⟨.ok (), .ok (), .ok [], .ok []⟩ 0 0 0 (.ok ()) (by decide)
  exact ⟨h.1, h2.2.2.2⟩

/-- Claim C9: the child is spawned with its working directory set to the
caller's working directory (the `workingDir` the engine was handed, which
`runSkillCode` takes from `process.cwd()`), and with the host environment
inherited except that `HOME` is explicitly set — kept when present and
non-empty, and otherwise falling back to the platform home directory. -/
theorem spec_C9 (tmpFile callerWorkingDir : String)
    (hostEnv : String → Option String) (osHomedir : String) :
    (spawnConfig tmpFile callerWorkingDir hostEnv osHomedir).cwd = callerWorkingDir
    ∧ (∀ k, k ≠ "HOME" →
        (spawnConfig tmpFile callerWorkingDir hostEnv osHomedir).env k = hostEnv k)
    ∧ (hostEnv "HOME" = none →
        (spawnConfig tmpFile callerWorkingDir hostEnv osHomedir).env "HOME"
          = some osHomedir)
    ∧ (∀ x, hostEnv "HOME" = some x → x ≠ "" →
        (spawnConfig tmpFile callerWorkingDir hostEnv osHomedir).env "HOME" = some x) := by
  refine ⟨rfl, ?_, ?_, ?_⟩
  · intro k hk
    simp [spawnConfig, childEnv, hk]
  · intro hnone
    simp [spawnConfig, childEnv, jsOrS, hnone]
  · intro x hx hne
    simp [spawnConfig, childEnv, jsOrS, hx, hne]

theorem spec_C9_witness :
    (spawnConfig "code.ts" "/work" (fun k =>
        if k = "PATH" then some "/usr/bin"
        else if k = "HOME" then some "/root" else none) "/fallback").cwd = "/work"
    ∧ (spawnConfig "code.ts" "/work" (fun k =>
        if k = "PATH" then some "/usr/bin"
        else if k = "HOME" then some "/root" else none) "/fallback").env "PATH"
      = some "/usr/bin"
    ∧ (spawnConfig "code.ts" "/work" (fun k =>
        if k = "PATH" then some "/usr/bin"
        else if k = "HOME" then some "/root" else none) "/fallback").env "HOME"
      = some "/root"
    ∧ (spawnConfig "code.ts" "/work" (fun _ => none) "/fallback").env "HOME"
      = some "/fallback" := by
  have h := spec_C9 "code.ts" "/work" (fun k =>
    if k = "PATH" then some "/usr/bin"
    else if k = "HOME" then some "/root" else none) "/fallback"
  have h2 := spec_C9 "code.ts" "/work" (fun _ => none) "/fallback"
  exact ⟨h.1, h.2.1 "PATH" (by decide), h.2.2.2 "/root" (by simp) (by decide),
    h2.2.2.1 rfl⟩

/-- Claim C10: when the body resolves to a value `JSON.stringify` cannot
encode (no explicit return, or a function), the harness still emits the
sentinel line, with the literal payload text `undefined`; that text fails
`JSON.parse`, so decoding takes the decode-failure branch — `returnValue`
absent — while the sentinel line is still stripped from the cleaned stdout. -/
theorem spec_C10 (logs : List (List Char))
    (h : containsSub (logsOut logs) returnMarker = false) :
    harnessStdout logs (some JsValue.undef)
      = logsOut logs ++ (returnMarker ++ ("undefined".data ++ ['\n']))
    ∧ jsonParse "undefined".data = none
    ∧ decodeStdout (harnessStdout logs (some JsValue.undef)) = (none, logsOut logs) := by
  refine ⟨by simp [harnessStdout, sentinelPayload, List.append_assoc], rfl, ?_⟩
  have hshape : harnessStdout logs (some JsValue.undef)
      = logsOut logs ++ (returnMarker ++ ("undefined".data ++ '\n' :: [])) := by
    simp [harnessStdout, sentinelPayload, List.append_assoc]
  rw [hshape, decode_split _ _ _ h (by decide)]
  rw [show jsonParse "undefined".data = none from rfl]
  simp

theorem spec_C10_witness :
    decodeStdout (harnessStdout ["working".data] (some JsValue.undef))
      = (none, logsOut ["working".data]) :=
  (spec_C10 ["working".data] (by decide)).2.2
